import Mathlib

/-!
Verification development for the audioviz repository.

The Rust source is shallowly embedded: `f32`/`f64` arithmetic is modelled by
exact rational arithmetic (`ℚ`), except for the transcendental volume
normalisation factors (`sqrt`, `log`) which are modelled over `ℝ`.
Vectors (`Vec<T>`) are modelled by `List`, `usize` by `ℕ`.
Rust's saturating float-to-integer cast `as usize` is modelled by
truncation followed by `Int.toNat` (negative values become 0, matching
Rust's saturating cast for the inputs that occur here).
-/

namespace Audioviz

/-- Rust `f64`/`f32` truncation toward zero (`f.trunc()`), on `ℚ`. -/
def rustTrunc (q : ℚ) : ℤ := if 0 ≤ q then ⌊q⌋ else ⌈q⌉

/-- Rust's `%` on floats has the sign of the dividend: `q % 1.0 = q - q.trunc()`. -/
def rustRemOne (q : ℚ) : ℚ := q - rustTrunc q

/-- Rust `expr as usize` applied to a (here rational-modelled) float:
truncation toward zero, saturating at 0 for negatives. -/
def ratAsUsize (q : ℚ) : ℕ := (rustTrunc q).toNat

theorem rustTrunc_of_nonneg {q : ℚ} (h : 0 ≤ q) : rustTrunc q = ⌊q⌋ := by
  unfold rustTrunc
  exact if_pos h

theorem rustRemOne_eq_fract_of_nonneg {q : ℚ} (h : 0 ≤ q) :
    rustRemOne q = Int.fract q := by
  rw [rustRemOne, rustTrunc_of_nonneg h, Int.fract]

/-! ## Distributor (src/distributor.rs)

`Distributor<T>` state; the two `Instant` fields (std feature) carry no
logic relevant to the claims (they only feed the `_auto` variants' time
measurement) and are omitted. -/

structure Distributor (T : Type) where
  last_buffer_size : ℕ
  last_pop_size : ℕ
  data_rate : ℚ
  fully_initialized : Bool
  send_amount_excess : ℚ
  buffer : List T
deriving DecidableEq, Repr

/-- `Elapsed` enum from src/distributor.rs. -/
inductive Elapsed where
  | nanos (n : ℕ)
  | micros (n : ℕ)
  | millis (n : ℕ)
deriving DecidableEq, Repr

/-- `Distributor::new(estimated_data_rate)`. -/
def Distributor.new (T : Type) (estimated_data_rate : ℚ) : Distributor T :=
  { last_buffer_size := 0
    last_pop_size := 0
    data_rate := estimated_data_rate
    fully_initialized := false
    send_amount_excess := 0
    buffer := [] }

/-- `Distributor::clone_buffer`. -/
def Distributor.clone_buffer {T : Type} (s : Distributor T) : List T := s.buffer

/-- `Distributor::clear`. -/
def Distributor.clear {T : Type} (s : Distributor T) : Distributor T :=
  { s with buffer := [] }

/-- `Distributor::push(buffer, elapsed)`.  The source computes
`(buffer.len() - self.last_pop_size) as f64`; the subtraction is `usize`
subtraction, modelled by truncated `ℕ` subtraction (it never underflows on
reachable states since `last_pop_size` is always 0, see `reachable_last_pop_size`). -/
def Distributor.push {T : Type} (s : Distributor T) (buffer : List T) (elapsed : Elapsed) :
    Distributor T :=
  let s1 := { s with last_buffer_size := buffer.length }
  let s2 :=
    if s1.fully_initialized then
      { s1 with data_rate :=
          match elapsed with
          | .nanos e => ((buffer.length - s1.last_pop_size : ℕ) : ℚ) / (e : ℚ) * 1000000000
          | .micros e => ((buffer.length - s1.last_pop_size : ℕ) : ℚ) / (e : ℚ) * 1000000
          | .millis e => ((buffer.length - s1.last_pop_size : ℕ) : ℚ) / (e : ℚ) * 1000 }
    else s1
  { s2 with buffer := s2.buffer ++ buffer, fully_initialized := true }

/-- The raw (float) send amount computed at the top of `Distributor::pop`:
`(elapsed / unit) * data_rate`. -/
def Distributor.popWant {T : Type} (s : Distributor T) (elapsed : Elapsed) : ℚ :=
  match elapsed with
  | .nanos e => (e : ℚ) / 1000000000 * s.data_rate
  | .micros e => (e : ℚ) / 1000000 * s.data_rate
  | .millis e => (e : ℚ) / 1000 * s.data_rate

/-- `send_amount_excess` right after `self.send_amount_excess += send_amount % 1.0`. -/
def Distributor.popExcess1 {T : Type} (s : Distributor T) (elapsed : Elapsed) : ℚ :=
  s.send_amount_excess + rustRemOne (s.popWant elapsed)

/-- The integer `send_amount` after flooring and the excess handling branch. -/
def Distributor.popSendCount {T : Type} (s : Distributor T) (elapsed : Elapsed) : ℕ :=
  (⌊s.popWant elapsed⌋).toNat + (if 1 ≤ s.popExcess1 elapsed then 1 else 0)

/-- `send_amount_excess` after the excess handling branch. -/
def Distributor.popExcess2 {T : Type} (s : Distributor T) (elapsed : Elapsed) : ℚ :=
  s.popExcess1 elapsed - (if 1 ≤ s.popExcess1 elapsed then 1 else 0)

/-- `Distributor::pop(elapsed)`, returning the popped output and the new state.
`drain(0..n)` on the front is `List.drop n`; the safety valve's
`drain(0..oversize)` keeps the last `send_amount` elements. -/
def Distributor.pop {T : Type} (s : Distributor T) (elapsed : Elapsed) :
    List T × Distributor T :=
  let send_amount := s.popSendCount elapsed
  let o_buffer := if send_amount < s.buffer.length then s.buffer.take send_amount else s.buffer
  let buf := if send_amount < s.buffer.length then s.buffer.drop send_amount else []
  let cap := s.last_buffer_size * 2
  let buf2 :=
    if cap < buf.length ∧ cap ≠ 0 ∧ send_amount < buf.length then
      buf.drop (buf.length - send_amount)
    else buf
  (o_buffer, { s with send_amount_excess := s.popExcess2 elapsed, buffer := buf2 })

/-- Helper: `popWant` is nonnegative whenever the data rate is. -/
theorem popWant_nonneg {T : Type} (s : Distributor T) (e : Elapsed)
    (hrate : 0 ≤ s.data_rate) : 0 ≤ s.popWant e := by
  cases e <;> exact mul_nonneg (div_nonneg (by positivity) (by positivity)) hrate

/-- Claim C1: `pop(elapsed)` computes `want = elapsed_time * data_rate`, adds
`want`'s fractional part to the excess accumulator, emits one extra element
(subtracting 1 from the excess) when the accumulated excess reaches 1, and
removes exactly `min(want, queue_len)` elements from the front of the queue in
FIFO order, returning them as a prefix of the pre-call queue.  (The final
queue is a suffix of the remainder: the safety valve can only drop further
elements from the front, which is the subject of C2.) -/
theorem distributor_pop_spec {T : Type} (s : Distributor T) (e : Elapsed)
    (hrate : 0 ≤ s.data_rate) :
    (s.pop e).1 = s.buffer.take (min (s.popSendCount e) s.buffer.length) ∧
    (s.pop e).1.length = min (s.popSendCount e) s.buffer.length ∧
    (s.pop e).2.buffer.IsSuffix
      (s.buffer.drop (min (s.popSendCount e) s.buffer.length)) ∧
    s.popSendCount e =
      (⌊s.popWant e⌋).toNat +
        (if 1 ≤ s.send_amount_excess + Int.fract (s.popWant e) then 1 else 0) ∧
    (s.pop e).2.send_amount_excess =
      s.send_amount_excess + Int.fract (s.popWant e) -
        (if 1 ≤ s.send_amount_excess + Int.fract (s.popWant e) then 1 else 0) := by
  have hw : 0 ≤ s.popWant e := popWant_nonneg s e hrate
  have hfr : rustRemOne (s.popWant e) = Int.fract (s.popWant e) :=
    rustRemOne_eq_fract_of_nonneg hw
  have hex1 : s.popExcess1 e = s.send_amount_excess + Int.fract (s.popWant e) := by
    rw [Distributor.popExcess1, hfr]
  refine ⟨?_, ?_, ?_, ?_, ?_⟩
  · by_cases h : s.popSendCount e < s.buffer.length
    · simp [Distributor.pop, h, min_eq_left (le_of_lt h)]
    · have hle : s.buffer.length ≤ s.popSendCount e := le_of_not_lt h
      simp [Distributor.pop, h, min_eq_right hle]
  · by_cases h : s.popSendCount e < s.buffer.length
    · simp [Distributor.pop, h, min_eq_left (le_of_lt h)]
    · have hle : s.buffer.length ≤ s.popSendCount e := le_of_not_lt h
      simp [Distributor.pop, h, min_eq_right hle]
  · by_cases h : s.popSendCount e < s.buffer.length
    · have hmin : min (s.popSendCount e) s.buffer.length = s.popSendCount e :=
        min_eq_left (le_of_lt h)
      rw [hmin]
      simp only [Distributor.pop, if_pos h]
      split
      · exact List.drop_suffix _ _
      · exact List.suffix_refl _
    · have hle : s.buffer.length ≤ s.popSendCount e := le_of_not_lt h
      have hmin : min (s.popSendCount e) s.buffer.length = s.buffer.length :=
        min_eq_right hle
      rw [hmin]
      simp only [Distributor.pop, if_neg h]
      split
      · simp
      · simp
  · rw [Distributor.popSendCount, hex1]
  · simp only [Distributor.pop]
    rw [Distributor.popExcess2, hex1]

/-- Witness for C1 at a concrete state. -/
theorem distributor_pop_spec_witness :
    (0 : ℚ) ≤ ((Distributor.mk 4 0 2 true 0 [10, 20, 30] : Distributor ℕ)).data_rate ∧
    ((Distributor.mk 4 0 2 true 0 [10, 20, 30] : Distributor ℕ).pop (.millis 1000)).1 =
      (Distributor.mk 4 0 2 true 0 [10, 20, 30] : Distributor ℕ).buffer.take
        (min ((Distributor.mk 4 0 2 true 0 [10, 20, 30] : Distributor ℕ).popSendCount
          (.millis 1000)) 3) :=
  ⟨by norm_num,
    (distributor_pop_spec (Distributor.mk 4 0 2 true 0 [10, 20, 30] : Distributor ℕ)
      (.millis 1000) (by norm_num)).1⟩

/-- Claim C2, counterexample.  Sequence: `new(1)`, `push` of 6 elements,
`push` of 1 element one second later (so the measured rate becomes 1 element/s
and the cap becomes `2 × 1 = 2`), then `pop` after 3 seconds (send amount 3).
The remaining queue has 4 elements; the safety valve only trims it down to the
3 elements just requested, which still exceeds the cap of 2.  So "after any
pop the queue length does not exceed 2 × (size of the most recent push)" is
false. -/
theorem distributor_cap_counterexample :
    ((((Distributor.new ℕ 1).push [0, 1, 2, 3, 4, 5] (.millis 5)).push [6]
        (.millis 1000)).pop (.millis 3000)).2.buffer = [4, 5, 6] ∧
    ((((Distributor.new ℕ 1).push [0, 1, 2, 3, 4, 5] (.millis 5)).push [6]
        (.millis 1000)).pop (.millis 3000)).2.last_buffer_size = 1 ∧
    ¬ ((((Distributor.new ℕ 1).push [0, 1, 2, 3, 4, 5] (.millis 5)).push [6]
        (.millis 1000)).pop (.millis 3000)).2.buffer.length ≤
      2 * ((((Distributor.new ℕ 1).push [0, 1, 2, 3, 4, 5] (.millis 5)).push [6]
        (.millis 1000)).pop (.millis 3000)).2.last_buffer_size := by
  have h2 : (((Distributor.new ℕ 1).push [0, 1, 2, 3, 4, 5] (.millis 5)).push [6]
      (.millis 1000)) =
      Distributor.mk 1 0 1 true 0 [0, 1, 2, 3, 4, 5, 6] := by
    simp [Distributor.new, Distributor.push]
  rw [h2]
  have hw : (Distributor.mk 1 0 1 true 0 [0, 1, 2, 3, 4, 5, 6] :
      Distributor ℕ).popWant (.millis 3000) = 3 := by
    simp [Distributor.popWant]
    norm_num
  have hk : (Distributor.mk 1 0 1 true 0 [0, 1, 2, 3, 4, 5, 6] :
      Distributor ℕ).popSendCount (.millis 3000) = 3 := by
    rw [Distributor.popSendCount, Distributor.popExcess1, hw]
    norm_num [rustRemOne, rustTrunc]
    all_goals decide
  refine ⟨?_, ?_, ?_⟩ <;>
    simp [Distributor.pop, hk]

/-- Claim C2, amended: after any pop on a state that has seen a non-empty
push (`last_buffer_size ≠ 0`), the remaining queue length is bounded by
`max (2 × last push size) (send amount of this pop)` — the safety valve only
trims the queue down to the just-requested send amount, so when that amount
itself exceeds the cap (or the leftover is at most the send amount), the
`2×` cap can still be exceeded.  The operation is a total function (never
panics or blocks). -/
theorem distributor_pop_buffer_bound {T : Type} (s : Distributor T) (e : Elapsed)
    (h : s.last_buffer_size ≠ 0) :
    ((s.pop e).2).buffer.length ≤
      max (s.last_buffer_size * 2) (s.popSendCount e) := by
  by_cases hlt : s.popSendCount e < s.buffer.length
  · simp only [Distributor.pop, if_pos hlt]
    by_cases hv : s.last_buffer_size * 2 < (s.buffer.drop (s.popSendCount e)).length ∧
        s.last_buffer_size * 2 ≠ 0 ∧
        s.popSendCount e < (s.buffer.drop (s.popSendCount e)).length
    · rw [if_pos hv]
      simp only [List.length_drop]
      exact le_max_of_le_right (by omega)
    · rw [if_neg hv]
      have hcap : s.last_buffer_size * 2 ≠ 0 := by
        intro hc
        exact h (by omega)
      simp only [List.length_drop]
      rcases not_and_or.mp hv with h1 | h23


      · exact le_max_of_le_left (by simp only [List.length_drop] at h1; omega)
      · rcases not_and_or.mp h23 with h2 | h3
        · exact absurd hcap (by simpa using h2)
        · exact le_max_of_le_right (by simp only [List.length_drop] at h3; omega)
  · simp only [Distributor.pop, if_neg hlt]
    have : ¬ (s.last_buffer_size * 2 < ([] : List T).length ∧
        s.last_buffer_size * 2 ≠ 0 ∧ s.popSendCount e < ([] : List T).length) := by
      simp
    rw [if_neg this]
    simp

/-- Witness for the amended C2 bound at the counterexample's pre-pop state. -/
theorem distributor_pop_buffer_bound_witness :
    (Distributor.mk 1 0 1 true 0 [0, 1, 2, 3, 4, 5, 6] :
        Distributor ℕ).last_buffer_size ≠ 0 ∧
    (((Distributor.mk 1 0 1 true 0 [0, 1, 2, 3, 4, 5, 6] :
        Distributor ℕ).pop (.millis 3000)).2).buffer.length ≤
      max ((Distributor.mk 1 0 1 true 0 [0, 1, 2, 3, 4, 5, 6] :
        Distributor ℕ).last_buffer_size * 2)
        ((Distributor.mk 1 0 1 true 0 [0, 1, 2, 3, 4, 5, 6] :
          Distributor ℕ).popSendCount (.millis 3000)) :=
  ⟨by norm_num,
    distributor_pop_buffer_bound
      (Distributor.mk 1 0 1 true 0 [0, 1, 2, 3, 4, 5, 6] : Distributor ℕ)
      (.millis 3000) (by norm_num)⟩

/-- States reachable through the `Distributor` API (`new`, `push`, `pop`,
`clear`; `clone_buffer` does not change state, and the `_auto` variants
differ from `push`/`pop` only in how the elapsed time is measured). -/
inductive Reachable {T : Type} : Distributor T → Prop
  | new (r : ℚ) : Reachable (Distributor.new T r)
  | push {s : Distributor T} (b : List T) (e : Elapsed) :
      Reachable s → Reachable (s.push b e)
  | pop {s : Distributor T} (e : Elapsed) :
      Reachable s → Reachable ((s.pop e).2)
  | clear {s : Distributor T} : Reachable s → Reachable s.clear

/-- Modelled from the spec: `push` with the rate formula as the spec words it,
`data_rate = len(batch) / elapsed_time` (unit-consistent for ns/us/ms), with
no "last pop size" term. -/
def pushSpecModel {T : Type} (s : Distributor T) (buffer : List T) (elapsed : Elapsed) :
    Distributor T :=
  { s with
    last_buffer_size := buffer.length
    data_rate :=
      if s.fully_initialized then
        match elapsed with
        | .nanos e => (buffer.length : ℚ) / (e : ℚ) * 1000000000
        | .micros e => (buffer.length : ℚ) / (e : ℚ) * 1000000
        | .millis e => (buffer.length : ℚ) / (e : ℚ) * 1000
      else s.data_rate
    fully_initialized := true
    buffer := s.buffer ++ buffer }

/-- Claim C6: on every reachable state, `last_pop_size` is 0 (no operation
ever assigns it after construction), so the rate recomputed on a push after
the first is simply `len(batch) / elapsed` (suitably scaled per time unit);
the first push leaves the caller-supplied estimated rate unchanged and marks
the distributor initialized. -/
theorem distributor_push_rate_refines (T : Type) :
    (∀ s : Distributor T, Reachable s → s.last_pop_size = 0) ∧
    (∀ (s : Distributor T) (b : List T) (e : Elapsed),
      s.last_pop_size = 0 → s.push b e = pushSpecModel s b e) ∧
    (∀ (s : Distributor T) (b : List T) (e : Elapsed),
      s.fully_initialized = false →
        (s.push b e).data_rate = s.data_rate ∧
        (s.push b e).fully_initialized = true) := by
  refine ⟨?_, ?_, ?_⟩
  · intro s h
    induction h with
    | new r => rfl
    | push b e _ ih =>
      simp only [Distributor.push]
      split <;> simpa using ih
    | pop e _ ih =>
      simpa [Distributor.pop] using ih
    | clear _ ih =>
      simpa [Distributor.clear] using ih
  · intro s b e h
    simp only [Distributor.push, pushSpecModel, h]
    split
    · cases e <;> simp_all
    · simp_all
  · intro s b e h
    constructor
    · simp [Distributor.push, h]
    · simp [Distributor.push]

/-- Witness for C6 at a concrete reachable state: after two pushes, the rate
is `len / elapsed` with no correction term. -/
theorem distributor_push_rate_refines_witness :
    Reachable (((Distributor.new ℕ 5).push [7] (.millis 3)) : Distributor ℕ) ∧
    (((Distributor.new ℕ 5).push [7] (.millis 3)) : Distributor ℕ).last_pop_size = 0 ∧
    (((Distributor.new ℕ 5).push [7] (.millis 3)).push [8, 9] (.millis 1000)) =
      pushSpecModel (((Distributor.new ℕ 5).push [7] (.millis 3))) [8, 9]
        (.millis 1000) := by
  have hr : Reachable (((Distributor.new ℕ 5).push [7] (.millis 3)) : Distributor ℕ) :=
    Reachable.push [7] (.millis 3) (Reachable.new 5)
  have h0 := (distributor_push_rate_refines ℕ).1 _ hr
  exact ⟨hr, h0, (distributor_push_rate_refines ℕ).2.1 _ [8, 9] (.millis 1000) h0⟩

/-! ## Spectrum data model (src/spectrum/mod.rs, src/spectrum/config.rs) -/

/-- `Frequency { volume, freq, position }` with `f32` fields modelled as `ℚ`. -/
structure Frequency where
  volume : ℚ
  freq : ℚ
  position : ℚ
deriving DecidableEq, Repr

/-- `Frequency::empty()`. -/
def Frequency.empty : Frequency := ⟨0, 0, 0⟩

instance : Inhabited Frequency := ⟨Frequency.empty⟩

/-- `VolumeNormalisation` enum. -/
inductive VolumeNormalisation where
  | None
  | Exponential
  | Logarithmic
  | Mixture
deriving DecidableEq, Repr

/-- `PositionNormalisation` enum. -/
inductive PositionNormalisation where
  | Linear
  | Exponential
  | Harmonic
deriving DecidableEq, Repr

/-- `Interpolation` enum. -/
inductive Interpolation where
  | None
  | Step
  | Cubic
  | Linear
  | Gaps
deriving DecidableEq, Repr

/-- `ProcessorConfig`. -/
structure ProcessorConfig where
  sample_rate : ℕ
  frequency_bounds : ℕ × ℕ
  resolution : Option ℕ
  volume : ℚ
  volume_normalisation : VolumeNormalisation
  position_normalisation : PositionNormalisation
  manual_position_distribution : Option (List (ℕ × ℚ))
  interpolation : Interpolation
deriving DecidableEq, Repr

/-! ## Bounding (Processor::bound_frequencies, src/spectrum/processor.rs) -/

/-- Index of the first element satisfying `p`, mirroring the scanning loops
in `bound_frequencies`. -/
def findFirstIdx (p : Frequency → Bool) : List Frequency → Option ℕ
  | [] => none
  | f :: rest => if p f then some 0 else (findFirstIdx p rest).map (· + 1)

/-- The `start` index determined by the first loop of `bound_frequencies`:
first index whose `freq` exceeds the lower bound, or 0 when there is none. -/
def boundStart (lo : ℕ) (buf : List Frequency) : ℕ :=
  (findFirstIdx (fun f => decide ((lo : ℚ) < f.freq)) buf).getD 0

/-- The `end` index determined by the second loop of `bound_frequencies`:
one past the last index whose `freq` is below the upper bound, or
`buf.length` when there is none. -/
def boundEnd (hi : ℕ) (buf : List Frequency) : ℕ :=
  match findFirstIdx (fun f => decide (f.freq < (hi : ℚ))) buf.reverse with
  | some i => buf.length - i
  | none => buf.length

/-- `Processor::bound_frequencies` with bounds `lo`, `hi` (the two entries of
`config.frequency_bounds`).  Division by zero (`1.0 / 0.0`) is modelled by
`ℚ`'s total division (result 0); it occurs only when the first and last
retained positions coincide, exactly the situation excluded by C3-amended. -/
def bound_frequencies (lo hi : ℕ) (buf : List Frequency) : List Frequency :=
  let start := boundStart lo buf
  let e := boundEnd hi buf
  let bound_buff := (buf.drop start).take (e - start)
  if bound_buff.isEmpty then buf
  else
    let start_pos := (bound_buff.headD Frequency.empty).position
    let end_pos := (bound_buff.getLastD Frequency.empty).position - start_pos
    let end_pos_offset := 1 / end_pos
    bound_buff.map (fun f => { f with position := (f.position - start_pos) * end_pos_offset })

theorem findFirstIdx_spec (p : Frequency → Bool) :
    ∀ (l : List Frequency) (i : ℕ), findFirstIdx p l = some i →
      ∃ f, l.get? i = some f ∧ p f = true ∧
        ∀ j < i, ∀ g, l.get? j = some g → p g = false := by
  intro l
  induction l with
  | nil => intro i h; simp [findFirstIdx] at h
  | cons f rest ih =>
    intro i h
    by_cases hp : p f
    · simp [findFirstIdx, hp] at h
      subst h
      exact ⟨f, rfl, hp, by omega⟩
    · simp [findFirstIdx, hp] at h
      obtain ⟨i', hi', rfl⟩ := h
      obtain ⟨g, hg, hpg, hbefore⟩ := ih i' hi'
      refine ⟨g, by simpa using hg, hpg, ?_⟩
      intro j hj g' hg'
      cases j with
      | zero =>
        simp at hg'
        subst hg'
        simpa using hp
      | succ j' =>
        exact hbefore j' (by omega) g' (by simpa using hg')

theorem findFirstIdx_none (p : Frequency → Bool) :
    ∀ (l : List Frequency), findFirstIdx p l = none → ∀ f ∈ l, p f = false := by
  intro l
  induction l with
  | nil => intro _ f hf; simp at hf
  | cons f rest ih =>
    intro h g hg
    by_cases hp : p f
    · simp [findFirstIdx, hp] at h
    · simp [findFirstIdx, hp] at h
      rcases List.mem_cons.mp hg with hg' | hg'
      · subst hg'; simpa using hp
      · exact ih h g hg'

theorem findFirstIdx_isSome_of_mem (p : Frequency → Bool) (l : List Frequency)
    (h : ∃ f ∈ l, p f = true) : ∃ i, findFirstIdx p l = some i := by
  cases hfi : findFirstIdx p l with
  | none =>
    obtain ⟨f, hf, hp⟩ := h
    have := findFirstIdx_none p l hfi f hf
    rw [this] at hp
    exact absurd hp (by simp)
  | some i => exact ⟨i, rfl⟩

/-- Claim C3, counterexample.  A single bin with `freq = 5` and bounds
`[10, 20]`: the first scan finds no bin with `freq > 10` and defaults
`start` to 0, the second scan accepts the bin (`5 < 20`), so the bin is
retained even though its frequency `5` lies outside `[10, 20]`. -/
theorem bound_frequencies_counterexample :
    bound_frequencies 10 20 [⟨1, 5, 0⟩] = [⟨1, 5, 0⟩] ∧
    ¬ ((10 : ℚ) ≤ (⟨1, 5, 0⟩ : Frequency).freq) := by
  constructor
  · have hs : boundStart 10 [⟨1, 5, 0⟩] = 0 := by
      norm_num [boundStart, findFirstIdx]
    have he : boundEnd 20 [⟨1, 5, 0⟩] = 1 := by
      norm_num [boundEnd, findFirstIdx]
    simp [bound_frequencies, hs, he, Frequency.empty]
  · norm_num

/-- Monotone access from a freq-sorted buffer. -/
theorem sorted_freq_le {buf : List Frequency}
    (hmono : List.Pairwise (fun a b => a.freq ≤ b.freq) buf)
    {i j : ℕ} (hij : i ≤ j) (hj : j < buf.length) :
    (buf.get ⟨i, lt_of_le_of_lt hij hj⟩).freq ≤ (buf.get ⟨j, hj⟩).freq := by
  rcases lt_or_eq_of_le hij with h | h
  · exact List.pairwise_iff_getElem.mp hmono i j (lt_of_le_of_lt hij hj) hj h
  · subst h; exact le_refl _

/-- Claim C3, amended: for a buffer sorted by ascending `freq` that contains
a bin above the lower bound and a bin below the upper bound, and whose
bounded slice is non-empty with distinct first/last positions, every retained
bin's frequency lies strictly inside `(lo, hi)` (hence in `[lo, hi]`), the
first retained bin gets position exactly 0 and the last exactly 1.  Without
these hypotheses the claim fails (see the counterexample): when a scan finds
no qualifying bin it defaults to keeping everything from that side, and a
singleton slice divides by zero when re-anchoring. -/
theorem bound_frequencies_amended (lo hi : ℕ) (buf : List Frequency)
    (hmono : List.Pairwise (fun a b => a.freq ≤ b.freq) buf)
    (hlo : ∃ f ∈ buf, (lo : ℚ) < f.freq)
    (hhi : ∃ f ∈ buf, f.freq < (hi : ℚ))
    (hne : boundStart lo buf < boundEnd hi buf)
    (hpos : (((buf.drop (boundStart lo buf)).take
          (boundEnd hi buf - boundStart lo buf)).getLastD Frequency.empty).position ≠
        (((buf.drop (boundStart lo buf)).take
          (boundEnd hi buf - boundStart lo buf)).headD Frequency.empty).position) :
    (∀ f ∈ bound_frequencies lo hi buf, (lo : ℚ) < f.freq ∧ f.freq < (hi : ℚ)) ∧
    ((bound_frequencies lo hi buf).head?.map Frequency.position) = some 0 ∧
    ((bound_frequencies lo hi buf).getLast?.map Frequency.position) = some 1 := by
  classical
  obtain ⟨i0, hi0⟩ := findFirstIdx_isSome_of_mem
    (fun f => decide ((lo : ℚ) < f.freq)) buf (by
      obtain ⟨f, hf, hp⟩ := hlo
      exact ⟨f, hf, by simpa using hp⟩)
  obtain ⟨f0, hf0get, hf0p, _⟩ :=
    findFirstIdx_spec (fun f => decide ((lo : ℚ) < f.freq)) buf i0 hi0
  have hstart : boundStart lo buf = i0 := by
    rw [boundStart, hi0]
    rfl
  have hf0 : (lo : ℚ) < f0.freq := by simpa using hf0p
  obtain ⟨i1, hi1⟩ := findFirstIdx_isSome_of_mem
    (fun f => decide (f.freq < (hi : ℚ))) buf.reverse (by
      obtain ⟨f, hf, hp⟩ := hhi
      exact ⟨f, by simpa using hf, by simpa using hp⟩)
  obtain ⟨f1, hf1get, hf1p, _⟩ :=
    findFirstIdx_spec (fun f => decide (f.freq < (hi : ℚ))) buf.reverse i1 hi1
  have hend : boundEnd hi buf = buf.length - i1 := by
    rw [boundEnd, hi1]
  have hf1 : f1.freq < (hi : ℚ) := by simpa using hf1p
  have hi1len : i1 < buf.length := by
    obtain ⟨h, _⟩ := List.get?_eq_some.mp hf1get
    simpa using h
  have hf1get' : buf[buf.length - 1 - i1]? = some f1 := by
    rw [← List.getElem?_reverse (by simpa using hi1len)]
    simpa [← List.get?_eq_getElem?] using hf1get
  have hi0len : i0 < buf.length := by
    obtain ⟨h, _⟩ := List.get?_eq_some.mp hf0get
    exact h
  have hf0get' : buf[i0]? = some f0 := by
    simpa [← List.get?_eq_getElem?] using hf0get
  rw [hstart] at hne
  rw [hend] at hne
  have hslicelen :
      ((buf.drop (boundStart lo buf)).take
        (boundEnd hi buf - boundStart lo buf)).length =
        boundEnd hi buf - boundStart lo buf := by
    rw [hstart, hend]
    simp only [List.length_take, List.length_drop]
    omega
  have hsliceget : ∀ (j : ℕ), j < boundEnd hi buf - boundStart lo buf →
      ((buf.drop (boundStart lo buf)).take
        (boundEnd hi buf - boundStart lo buf))[j]? = buf[boundStart lo buf + j]? := by
    intro j hj
    rw [List.getElem?_take, if_pos hj, List.getElem?_drop]
  have hsne : ((buf.drop (boundStart lo buf)).take
      (boundEnd hi buf - boundStart lo buf)) ≠ [] := by
    intro hnil
    rw [hnil] at hslicelen
    simp only [List.length_nil] at hslicelen
    rw [hstart, hend] at hslicelen
    omega
  have hnotempty : ((buf.drop (boundStart lo buf)).take
      (boundEnd hi buf - boundStart lo buf)).isEmpty = false := by
    rcases h : ((buf.drop (boundStart lo buf)).take
        (boundEnd hi buf - boundStart lo buf)).isEmpty with _ | _
    · rfl
    · exact absurd (List.isEmpty_iff.mp h) hsne
  have hbounds : ∀ (j : ℕ) (f : Frequency),
      ((buf.drop (boundStart lo buf)).take
        (boundEnd hi buf - boundStart lo buf))[j]? = some f →
      (lo : ℚ) < f.freq ∧ f.freq < (hi : ℚ) := by
    intro j f hjf
    have hj : j < boundEnd hi buf - boundStart lo buf := by
      obtain ⟨h, _⟩ := List.getElem?_eq_some.mp hjf
      rw [hslicelen] at h
      exact h
    rw [hsliceget j hj] at hjf
    obtain ⟨hjlen, hjelem⟩ := List.getElem?_eq_some.mp hjf
    constructor
    · have hle : i0 ≤ boundStart lo buf + j := by rw [hstart]; omega
      have h1 : (buf.get ⟨i0, hi0len⟩).freq ≤
          (buf.get ⟨boundStart lo buf + j, hjlen⟩).freq :=
        sorted_freq_le hmono hle hjlen
      have h2 : buf.get ⟨i0, hi0len⟩ = f0 := by
        obtain ⟨_, h⟩ := List.getElem?_eq_some.mp hf0get'
        exact h
      have hjelem2 : buf.get ⟨boundStart lo buf + j, hjlen⟩ = f := hjelem
      rw [h2, hjelem2] at h1
      exact lt_of_lt_of_le hf0 h1
    · have hjle : boundStart lo buf + j ≤ buf.length - 1 - i1 := by
        rw [hstart, hend] at hj
        rw [hstart]
        omega
      have hlt1 : buf.length - 1 - i1 < buf.length := by omega
      have h1 : (buf.get ⟨boundStart lo buf + j, hjlen⟩).freq ≤
          (buf.get ⟨buf.length - 1 - i1, hlt1⟩).freq :=
        sorted_freq_le hmono hjle hlt1
      have h2 : buf.get ⟨buf.length - 1 - i1, hlt1⟩ = f1 := by
        obtain ⟨_, h⟩ := List.getElem?_eq_some.mp hf1get'
        exact h
      have hjelem2 : buf.get ⟨boundStart lo buf + j, hjlen⟩ = f := hjelem
      rw [h2, hjelem2] at h1
      exact lt_of_le_of_lt h1 hf1
  have hresult : bound_frequencies lo hi buf =
      ((buf.drop (boundStart lo buf)).take
        (boundEnd hi buf - boundStart lo buf)).map (fun f => { f with position :=
        (f.position - (((buf.drop (boundStart lo buf)).take
          (boundEnd hi buf - boundStart lo buf)).headD Frequency.empty).position) *
          (1 / ((((buf.drop (boundStart lo buf)).take
            (boundEnd hi buf - boundStart lo buf)).getLastD Frequency.empty).position -
            (((buf.drop (boundStart lo buf)).take
              (boundEnd hi buf - boundStart lo buf)).headD Frequency.empty).position)) }) := by
    simp only [bound_frequencies, hnotempty, Bool.false_eq_true, if_false]
  refine ⟨?_, ?_, ?_⟩
  · intro f hf
    rw [hresult] at hf
    obtain ⟨g, hg, rfl⟩ := List.mem_map.mp hf
    obtain ⟨j, hj, hgj⟩ := List.mem_iff_getElem.mp hg
    have : ((buf.drop (boundStart lo buf)).take
        (boundEnd hi buf - boundStart lo buf))[j]? = some g :=
      List.getElem?_eq_some.mpr ⟨hj, hgj⟩
    exact hbounds j g this
  · rw [hresult, List.head?_map]
    obtain ⟨h0, rest, hcons⟩ := List.exists_cons_of_ne_nil hsne
    rw [hcons]
    simp [List.headD]
  · rw [hresult, List.getLast?_map]
    have hlast : ((buf.drop (boundStart lo buf)).take
        (boundEnd hi buf - boundStart lo buf)).getLast? =
        some (((buf.drop (boundStart lo buf)).take
          (boundEnd hi buf - boundStart lo buf)).getLastD Frequency.empty) := by
      rw [List.getLastD_eq_getLast?]
      cases h : ((buf.drop (boundStart lo buf)).take
          (boundEnd hi buf - boundStart lo buf)).getLast? with
      | none => exact absurd (List.getLast?_eq_none_iff.mp h) hsne
      | some g => simp
    rw [hlast]
    have hne0 : (((buf.drop (boundStart lo buf)).take
        (boundEnd hi buf - boundStart lo buf)).getLastD Frequency.empty).position -
        (((buf.drop (boundStart lo buf)).take
          (boundEnd hi buf - boundStart lo buf)).headD Frequency.empty).position ≠ 0 :=
      sub_ne_zero.mpr hpos
    simp only [Option.map_some']
    congr 1
    rw [List.getLastD_eq_getLast?, List.headD_eq_head?] at hne0
    field_simp

/-- Witness for the amended C3 at a concrete sorted buffer. -/
theorem bound_frequencies_amended_witness :
    (∀ f ∈ bound_frequencies 10 20
        [⟨1, 5, 0⟩, ⟨1, 12, 1/3⟩, ⟨1, 18, 2/3⟩, ⟨1, 25, 1⟩],
      (10 : ℚ) < f.freq ∧ f.freq < (20 : ℚ)) ∧
    ((bound_frequencies 10 20
        [⟨1, 5, 0⟩, ⟨1, 12, 1/3⟩, ⟨1, 18, 2/3⟩, ⟨1, 25, 1⟩]).head?.map
      Frequency.position) = some 0 ∧
    ((bound_frequencies 10 20
        [⟨1, 5, 0⟩, ⟨1, 12, 1/3⟩, ⟨1, 18, 2/3⟩, ⟨1, 25, 1⟩]).getLast?.map
      Frequency.position) = some 1 := by
  apply bound_frequencies_amended
  · norm_num [List.pairwise_cons]
  · exact ⟨⟨1, 12, 1/3⟩, by norm_num, by norm_num⟩
  · exact ⟨⟨1, 12, 1/3⟩, by norm_num, by norm_num⟩
  · norm_num [boundStart, boundEnd, findFirstIdx]
  · norm_num [boundStart, boundEnd, findFirstIdx]

/-! ## Interpolation (Processor::interpolate, src/spectrum/processor.rs) -/

/-- One iteration of the `Gaps` scatter loop: place `freq` at
`(o_buf.len() as f32 * freq.position) as usize` when in range and strictly
louder than the present occupant. -/
def gapsInsert (o : List Frequency) (f : Frequency) : List Frequency :=
  let abs_pos := ratAsUsize ((o.length : ℚ) * f.position)
  if abs_pos < o.length ∧ (o.getD abs_pos Frequency.empty).volume < f.volume then
    o.set abs_pos f
  else o

/-- The slot a bin is scattered to by `Gaps` at resolution `res`. -/
def gapsSlot (res : ℕ) (f : Frequency) : ℕ := ratAsUsize ((res : ℚ) * f.position)

/-- The `ConfigInterpolation::Gaps` arm of `Processor::interpolate`. -/
def interpolateGaps (buf : List Frequency) (resolution : ℕ) : List Frequency :=
  buf.foldl gapsInsert (List.replicate resolution Frequency.empty)

theorem gapsInsert_length (o : List Frequency) (f : Frequency) :
    (gapsInsert o f).length = o.length := by
  rw [gapsInsert]
  split
  · simp [List.length_set]
  · rfl

theorem gaps_foldl_length (buf : List Frequency) :
    ∀ o : List Frequency, (List.foldl gapsInsert o buf).length = o.length := by
  induction buf with
  | nil => intro o; rfl
  | cons f rest ih =>
    intro o
    rw [List.foldl_cons, ih (gapsInsert o f), gapsInsert_length]

theorem gapsInsert_getD_volume_le (o : List Frequency) (f : Frequency) (i : ℕ) :
    ((o.getD i Frequency.empty).volume : ℚ) ≤
      ((gapsInsert o f).getD i Frequency.empty).volume := by
  rw [gapsInsert]
  split
  · next hcond =>
    obtain ⟨hlen, hvol⟩ := hcond
    simp only [List.getD_eq_getElem?_getD, List.getElem?_set]
    by_cases hij : ratAsUsize ((o.length : ℚ) * f.position) = i
    · rw [if_pos hij, if_pos (hij ▸ hlen)]
      rw [List.getD_eq_getElem?_getD] at hvol
      subst hij
      exact le_of_lt (by simpa using hvol)
    · rw [if_neg hij]
  · exact le_refl _

theorem gaps_foldl_volume_le (buf : List Frequency) :
    ∀ (o : List Frequency) (i : ℕ),
      ((o.getD i Frequency.empty).volume : ℚ) ≤
        ((List.foldl gapsInsert o buf).getD i Frequency.empty).volume := by
  induction buf with
  | nil => intro o i; exact le_refl _
  | cons f rest ih =>
    intro o i
    rw [List.foldl_cons]
    exact le_trans (gapsInsert_getD_volume_le o f i) (ih (gapsInsert o f) i)

theorem gaps_foldl_origin (buf : List Frequency) :
    ∀ (o : List Frequency) (i : ℕ),
      (List.foldl gapsInsert o buf).getD i Frequency.empty = o.getD i Frequency.empty ∨
      ∃ f ∈ buf, gapsSlot o.length f = i ∧
        (List.foldl gapsInsert o buf).getD i Frequency.empty = f := by
  induction buf with
  | nil => intro o i; exact Or.inl rfl
  | cons f rest ih =>
    intro o i
    rw [List.foldl_cons]
    have hlen : (gapsInsert o f).length = o.length := gapsInsert_length o f
    rcases ih (gapsInsert o f) i with h | ⟨g, hg, hslot, hval⟩
    · rw [h]
      rw [gapsInsert]
      split
      · next hcond =>
        obtain ⟨hl, _⟩ := hcond
        simp only [List.getD_eq_getElem?_getD, List.getElem?_set]
        by_cases hij : ratAsUsize ((o.length : ℚ) * f.position) = i
        · refine Or.inr ⟨f, List.mem_cons_self f rest, ?_, ?_⟩
          · simpa [gapsSlot] using hij
          · rw [if_pos hij, if_pos (hij ▸ hl)]
            rfl
        · rw [if_neg hij]
          exact Or.inl rfl
      · exact Or.inl rfl
    · exact Or.inr ⟨g, List.mem_cons_of_mem f hg, by rwa [hlen] at hslot, hval⟩

theorem gaps_foldl_self (buf : List Frequency) :
    ∀ (o : List Frequency) (f : Frequency), f ∈ buf →
      gapsSlot o.length f < o.length →
      (f.volume : ℚ) ≤
        ((List.foldl gapsInsert o buf).getD (gapsSlot o.length f) Frequency.empty).volume := by
  induction buf with
  | nil => intro o f hf; exact absurd hf (List.not_mem_nil f)
  | cons g rest ih =>
    intro o f hf hslot
    rw [List.foldl_cons]
    have hlen : (gapsInsert o g).length = o.length := gapsInsert_length o g
    rcases List.mem_cons.mp hf with hfg | hfr
    · subst hfg
      have hstep : (f.volume : ℚ) ≤
          ((gapsInsert o f).getD (gapsSlot o.length f) Frequency.empty).volume := by
        rw [gapsInsert]
        split
        · next hcond =>
          obtain ⟨hl, _⟩ := hcond
          simp only [List.getD_eq_getElem?_getD, List.getElem?_set, gapsSlot]
          simp [hl]
        · next hcond =>
          rw [not_and_or] at hcond
          rcases hcond with hc | hc
          · exact absurd hslot (by simpa [gapsSlot] using hc)
          · push_neg at hc
            simpa [gapsSlot] using hc
      calc (f.volume : ℚ)
          ≤ ((gapsInsert o f).getD (gapsSlot o.length f) Frequency.empty).volume := hstep
        _ ≤ _ := gaps_foldl_volume_le rest (gapsInsert o f) (gapsSlot o.length f)
    · have := ih (gapsInsert o g) f hfr (by rwa [hlen])
      rwa [hlen] at this

/-- Claim C8, amended: `Gaps` interpolation returns exactly `resolution`
slots; each occupied slot holds one of the input bins placed at its
truncated slot `(resolution as f32 * position) as usize` (truncation toward
zero, not rounding); every other slot is `Frequency::empty()`; and a bin
whose slot is in range is never outvolumed by what ends up there (louder
content is never overwritten by quieter content sharing a slot). -/
theorem interpolate_gaps_amended (buf : List Frequency) (res : ℕ) :
    (interpolateGaps buf res).length = res ∧
    (∀ i : ℕ, (interpolateGaps buf res).getD i Frequency.empty = Frequency.empty ∨
      ∃ f ∈ buf, gapsSlot res f = i ∧
        (interpolateGaps buf res).getD i Frequency.empty = f) ∧
    (∀ f ∈ buf, gapsSlot res f < res →
      (f.volume : ℚ) ≤
        ((interpolateGaps buf res).getD (gapsSlot res f) Frequency.empty).volume) := by
  have hrep : ∀ i : ℕ,
      (List.replicate res Frequency.empty).getD i Frequency.empty = Frequency.empty := by
    intro i
    rw [List.getD_eq_getElem?_getD, List.getElem?_replicate]
    split <;> rfl
  have hreplen : (List.replicate res Frequency.empty).length = res :=
    List.length_replicate res Frequency.empty
  refine ⟨?_, ?_, ?_⟩
  · rw [interpolateGaps, gaps_foldl_length, hreplen]
  · intro i
    rcases gaps_foldl_origin buf (List.replicate res Frequency.empty) i with h | ⟨f, hf, hs, hv⟩
    · exact Or.inl (by rw [interpolateGaps, h, hrep])
    · exact Or.inr ⟨f, hf, by rwa [hreplen] at hs, hv⟩
  · intro f hf hslot
    have := gaps_foldl_self buf (List.replicate res Frequency.empty) f hf
      (by rwa [hreplen])
    rwa [hreplen] at this

/-- Witness for the amended C8 at a concrete input. -/
theorem interpolate_gaps_amended_witness :
    (interpolateGaps [⟨1, 7, 3/10⟩] 5).length = 5 ∧
    ((⟨1, 7, 3/10⟩ : Frequency) ∈ [(⟨1, 7, 3/10⟩ : Frequency)] ∧
      gapsSlot 5 ⟨1, 7, 3/10⟩ < 5 ∧
      ((1 : ℚ) ≤ ((interpolateGaps [⟨1, 7, 3/10⟩] 5).getD
        (gapsSlot 5 ⟨1, 7, 3/10⟩) Frequency.empty).volume)) := by
  have hmem : (⟨1, 7, 3/10⟩ : Frequency) ∈ [(⟨1, 7, 3/10⟩ : Frequency)] :=
    List.mem_singleton.mpr rfl
  have hslot : gapsSlot 5 (⟨1, 7, 3/10⟩ : Frequency) = 1 := by
    rw [gapsSlot, ratAsUsize, rustTrunc]
    norm_num
  refine ⟨(interpolate_gaps_amended [⟨1, 7, 3/10⟩] 5).1, hmem, by rw [hslot]; norm_num, ?_⟩
  exact (interpolate_gaps_amended [⟨1, 7, 3/10⟩] 5).2.2 ⟨1, 7, 3/10⟩ hmem
    (by rw [hslot]; norm_num)

/-- Claim C8, counterexample to the rounding part: a bin at position `3/10`
with resolution 5 has `position * resolution = 1.5`; the code truncates and
places it in slot 1, while `round(1.5) = 2`, so "scattered to slot
`round(position * resolution)`" is false. -/
theorem interpolate_gaps_counterexample :
    interpolateGaps [⟨1, 7, 3/10⟩] 5 =
      [Frequency.empty, ⟨1, 7, 3/10⟩, Frequency.empty, Frequency.empty, Frequency.empty] ∧
    round ((3/10 : ℚ) * 5) = 2 ∧
    interpolateGaps [⟨1, 7, 3/10⟩] 5 ≠
      [Frequency.empty, Frequency.empty, ⟨1, 7, 3/10⟩, Frequency.empty, Frequency.empty] := by
  have h1 : interpolateGaps [⟨1, 7, 3/10⟩] 5 =
      [Frequency.empty, ⟨1, 7, 3/10⟩, Frequency.empty, Frequency.empty, Frequency.empty] := by
    rw [interpolateGaps, List.foldl_cons, List.foldl_nil, gapsInsert]
    norm_num [List.replicate, ratAsUsize, rustTrunc, Frequency.empty]
  refine ⟨h1, by rw [round_eq]; norm_num, ?_⟩
  rw [h1]
  intro h
  simp [Frequency.empty] at h

/-- Body of the inner `for i in start..=end` loop of the `Step` arm: fill
slot `i` with `freq` when in range and strictly louder. -/
def fillStep (f : Frequency) (o : List Frequency) (i : ℕ) : List Frequency :=
  if i < o.length ∧ (o.getD i Frequency.empty).volume < f.volume then o.set i f else o

/-- The inclusive index range `start..=fin` (empty when `start > fin`). -/
def stepRange (start fin : ℕ) : List ℕ := List.range' start (fin + 1 - start)

/-- The peekable iteration of the `Step` arm: each bin fills the slots from
its own scaled position up to (inclusively) the next bin's scaled position,
the last bin filling up to `1.0 * o_buf.len()`. -/
def stepGo : List Frequency → List Frequency → List Frequency
  | o, [] => o
  | o, f :: rest =>
      let start := ratAsUsize (f.position * (o.length : ℚ))
      let fin := ratAsUsize ((match rest.head? with
        | some g => g.position
        | none => 1) * (o.length : ℚ))
      stepGo ((stepRange start fin).foldl (fillStep f) o) rest

/-- The `ConfigInterpolation::Step` arm of `Processor::interpolate`. -/
def interpolateStep (buf : List Frequency) (resolution : ℕ) : List Frequency :=
  stepGo (List.replicate resolution Frequency.empty) buf

theorem fillStep_length (f : Frequency) (o : List Frequency) (i : ℕ) :
    (fillStep f o i).length = o.length := by
  rw [fillStep]
  split
  · simp [List.length_set]
  · rfl

theorem fill_foldl_length (l : List ℕ) :
    ∀ (o : List Frequency) (f : Frequency),
      (l.foldl (fillStep f) o).length = o.length := by
  induction l with
  | nil => intro o f; rfl
  | cons i rest ih =>
    intro o f
    rw [List.foldl_cons, ih, fillStep_length]

theorem stepGo_length (buf : List Frequency) :
    ∀ o : List Frequency, (stepGo o buf).length = o.length := by
  induction buf with
  | nil => intro o; rfl
  | cons f rest ih =>
    intro o
    rw [stepGo, ih, fill_foldl_length]

/-- Claim C9, amended: re-running `Step` interpolation at the same resolution
preserves the shape — both a single and a double application return exactly
`resolution` slots — but it is not content-idempotent: a louder earlier bin
spills into the inclusive end of its fill range (the next bin's scaled slot)
on the second pass and can overwrite a quieter bin there, so `Step` applied
to its own output can change it (see the counterexample). -/
theorem interpolate_step_length_stable (buf : List Frequency) (res : ℕ) :
    (interpolateStep (interpolateStep buf res) res).length =
      (interpolateStep buf res).length ∧
    (interpolateStep buf res).length = res := by
  have hlen : ∀ b : List Frequency, (interpolateStep b res).length = res := by
    intro b
    rw [interpolateStep, stepGo_length, List.length_replicate]
  exact ⟨by rw [hlen, hlen], hlen buf⟩

/-- Claim C9, counterexample: with resolution 2 and input
`[{vol 5, pos 0}, {vol 1/10, pos 2/5}, {vol 1, pos 1/2}]`, a single `Step`
pass yields `[{vol 5, pos 0}, {vol 1, pos 1/2}]`, but a second pass lets the
first (louder) slot spill into slot 1 (its fill range is `0..=1` because the
next bin's scaled position is `1/2 * 2 = 1`), producing
`[{vol 5, pos 0}, {vol 5, pos 0}]`.  `Step` on its own output is not a
no-op. -/
theorem interpolate_step_counterexample :
    interpolateStep [⟨5, 0, 0⟩, ⟨1/10, 0, 2/5⟩, ⟨1, 0, 1/2⟩] 2 =
      [⟨5, 0, 0⟩, ⟨1, 0, 1/2⟩] ∧
    interpolateStep (interpolateStep [⟨5, 0, 0⟩, ⟨1/10, 0, 2/5⟩, ⟨1, 0, 1/2⟩] 2) 2 ≠
      interpolateStep [⟨5, 0, 0⟩, ⟨1/10, 0, 2/5⟩, ⟨1, 0, 1/2⟩] 2 := by
  have hr00 : stepRange 0 0 = [0] := rfl
  have hr01 : stepRange 0 1 = [0, 1] := rfl
  have hr12 : stepRange 1 2 = [1, 2] := rfl
  have h1 : interpolateStep [⟨5, 0, 0⟩, ⟨1/10, 0, 2/5⟩, ⟨1, 0, 1/2⟩] 2 =
      [⟨5, 0, 0⟩, ⟨1, 0, 1/2⟩] := by
    rw [interpolateStep]
    norm_num [stepGo, stepRange, fillStep, ratAsUsize, rustTrunc, Frequency.empty,
      List.range', List.replicate]
  have h2 : interpolateStep [⟨5, 0, 0⟩, ⟨1, 0, 1/2⟩] 2 = [⟨5, 0, 0⟩, ⟨5, 0, 0⟩] := by
    rw [interpolateStep]
    norm_num [stepGo, stepRange, fillStep, ratAsUsize, rustTrunc, Frequency.empty,
      List.range', List.replicate]
  refine ⟨h1, ?_⟩
  rw [h1, h2]
  intro h
  simp at h

/-- The `ConfigInterpolation::Linear` arm's peekable loop: interpolate
volume and frequency between each adjacent pair; the loop breaks when `peek`
has no next element (a single trailing bin fills nothing).  A zero-width gap
would make `pos/gap = 0/0` NaN, which the source maps to `0.5`. -/
def interpolateLinearGo : List Frequency → List Frequency → List Frequency
  | o, [] => o
  | o, sf :: rest =>
    match rest.head? with
    | none => o
    | some ef =>
      let start := ratAsUsize (sf.position * (o.length : ℚ))
      let fin := ratAsUsize (ef.position * (o.length : ℚ))
      let o2 :=
        if start < o.length ∧ fin < o.length then
          (stepRange start fin).foldl (fun acc i =>
            let pos := i - start
            let gap := fin - start
            let percentage : ℚ := if gap = 0 then 1/2 else (pos : ℚ) / (gap : ℚ)
            let volume := sf.volume * (1 - percentage) + ef.volume * percentage
            let fr := sf.freq * (1 - percentage) + ef.freq * percentage
            if i < acc.length ∧ (acc.getD i Frequency.empty).volume < volume then
              acc.set i ⟨volume, fr, 0⟩
            else acc) o
        else o
      interpolateLinearGo o2 rest

/-- The `ConfigInterpolation::Cubic` arm: pad with `Frequency::empty()`
sentinels, then 4-point cubic volume interpolation with linear frequency
interpolation over each padded window. -/
def interpolateCubic (buf : List Frequency) (resolution : ℕ) : List Frequency :=
  let o := List.replicate resolution Frequency.empty
  let fb := Frequency.empty :: (buf ++ [Frequency.empty])
  if 4 < fb.length then
    (List.range (fb.length - 3)).foldl (fun acc i =>
      let y0 := (fb.getD i Frequency.empty).volume
      let y1 := (fb.getD (i+1) Frequency.empty).volume
      let y2 := (fb.getD (i+2) Frequency.empty).volume
      let y3 := (fb.getD (i+3) Frequency.empty).volume
      let start := ratAsUsize ((fb.getD (i+1) Frequency.empty).position * (acc.length : ℚ))
      let fin := ratAsUsize ((fb.getD (i+2) Frequency.empty).position * (acc.length : ℚ))
      if start < resolution ∧ fin < resolution then
        (stepRange start fin).foldl (fun inner j =>
          let pos := j - start
          let gap := fin - start
          let t : ℚ := if gap = 0 then 1/2 else (pos : ℚ) / (gap : ℚ)
          let t2 := t ^ 2
          let a0 := y3 - y2 - y0 + y1
          let a1 := y0 - y1 - a0
          let a2 := y2 - y0
          let a3 := y1
          let volume := a0 * t * t2 + a1 * t2 + a2 * t + a3
          let f1 := (fb.getD (i+1) Frequency.empty).freq
          let f2 := (fb.getD (i+2) Frequency.empty).freq
          let fr := f1 * (1 - t) + f2 * t
          if j < inner.length ∧ (inner.getD j Frequency.empty).volume < volume then
            inner.set j ⟨volume, fr, 0⟩
          else inner) acc
      else acc) o
  else o

/-- `Processor::interpolate`: dispatch on the configured mode, with the
output resolution defaulting to the input length when unset. -/
def interpolate (cfg : ProcessorConfig) (buf : List Frequency) : List Frequency :=
  let resolution :=
    match cfg.resolution with
    | some res => res
    | none => buf.length
  match cfg.interpolation with
  | .None => buf
  | .Gaps => interpolateGaps buf resolution
  | .Step => interpolateStep buf resolution
  | .Linear => interpolateLinearGo (List.replicate resolution Frequency.empty) buf
  | .Cubic => interpolateCubic buf resolution

/-! ## Stream (src/spectrum/stream.rs) -/

/-- `StreamConfig`. -/
structure StreamConfig where
  channel_count : ℕ
  processor : ProcessorConfig
  fft_resolution : ℕ
  refresh_rate : ℕ
  gravity : Option ℚ
deriving DecidableEq, Repr

/-- `Stream` state. -/
structure Stream where
  config : StreamConfig
  raw_buffer : List ℚ
  freq_buffer : List Frequency
  gravity_time_buffer : List ℕ
deriving DecidableEq, Repr

/-- First gravity loop of `Stream::update`: per bin, snap the held entry to
the processed one (resetting its age) when the processed volume is strictly
higher, otherwise increment its age. -/
def snapStep : List Frequency → List ℕ → List Frequency → List Frequency × List ℕ
  | h :: hs, a :: ts, p :: ps =>
      let r := snapStep hs ts ps
      if h.volume < p.volume then (p :: r.1, 0 :: r.2) else (h :: r.1, (a + 1) :: r.2)
  | hs, ts, _ => (hs, ts)

/-- Second gravity loop of `Stream::update`: subtract
`gravity * 0.0025 * age` from each held volume, clamping at 0 and resetting
the age when the subtraction would go negative. -/
def decayStep (g : ℚ) : List Frequency → List ℕ → List Frequency × List ℕ
  | f :: fs, a :: ts =>
      let r := decayStep g fs ts
      let grav := g * 0.0025 * (a : ℚ)
      if 0 ≤ f.volume - grav then
        ({ f with volume := f.volume - grav } :: r.1, a :: r.2)
      else
        ({ f with volume := 0 } :: r.1, 0 :: r.2)
  | fs, ts => (fs, ts)

/-- The whole `Some(gravity)` block of `Stream::update`: re-allocate the held
and age buffers when their length changed, then snap/age, then decay. -/
def gravityApply (g : ℚ) (held : List Frequency) (age : List ℕ)
    (processed : List Frequency) : List Frequency × List ℕ :=
  let held2 :=
    if held.length ≠ processed.length then
      List.replicate processed.length Frequency.empty
    else held
  let age2 :=
    if age.length ≠ processed.length then List.replicate processed.length 0 else age
  let r := snapStep held2 age2 processed
  decayStep g r.1 r.2

/-- `Stream::update`.  The spectral pipeline run on the trimmed raw buffer
(apodize, fft, volume normalisation, bin mapping, position normalisation,
manual distribution — stages whose windowing/FFT transcendentals have no
exact rational model) is abstracted as the `process` parameter; every claim
about `update` concerns only the guard, the trimming and the gravity block,
which are embedded from the source. -/
def Stream.update (process : List ℚ → List Frequency) (s : Stream) : Stream :=
  if s.config.fft_resolution < s.raw_buffer.length then
    let raw := s.raw_buffer.drop (s.raw_buffer.length - s.config.fft_resolution)
    let processed := process raw
    match s.config.gravity with
    | some g =>
        let r := gravityApply g s.freq_buffer s.gravity_time_buffer processed
        { s with raw_buffer := raw, freq_buffer := r.1, gravity_time_buffer := r.2 }
    | none => { s with raw_buffer := raw, freq_buffer := processed }
  else s

/-- `Stream::get_frequencies`: clone the held buffer, apply bounding then
interpolation to the clone, return it; the `Stream`'s own fields are not
written. -/
def Stream.get_frequencies (s : Stream) : List Frequency × Stream :=
  let data := s.freq_buffer
  (interpolate s.config.processor
    (bound_frequencies s.config.processor.frequency_bounds.1
      s.config.processor.frequency_bounds.2 data), s)

theorem snapStep_getElem? :
    ∀ (held : List Frequency) (age : List ℕ) (proc : List Frequency) (i : ℕ)
      (h p : Frequency) (a : ℕ),
      held[i]? = some h → age[i]? = some a → proc[i]? = some p →
      (snapStep held age proc).1[i]? =
        some (if h.volume < p.volume then p else h) ∧
      (snapStep held age proc).2[i]? =
        some (if h.volume < p.volume then 0 else a + 1) := by
  intro held
  induction held with
  | nil => intro age proc i h p a hh _ _; simp at hh
  | cons h0 hs ih =>
    intro age proc i h p a hh ha hp
    cases age with
    | nil => simp at ha
    | cons a0 ts =>
      cases proc with
      | nil => simp at hp
      | cons p0 ps =>
        cases i with
        | zero =>
          simp only [List.getElem?_cons_zero, Option.some.injEq] at hh ha hp
          subst hh; subst ha; subst hp
          rw [snapStep]
          split <;> simp_all
        | succ i' =>
          simp only [List.getElem?_cons_succ] at hh ha hp
          have := ih ts ps i' h p a hh ha hp
          rw [snapStep]
          split <;> simpa using this

theorem decayStep_getElem? (g : ℚ) :
    ∀ (fs : List Frequency) (ts : List ℕ) (i : ℕ) (f : Frequency) (a : ℕ),
      fs[i]? = some f → ts[i]? = some a →
      (decayStep g fs ts).1[i]? =
        some (if 0 ≤ f.volume - g * 0.0025 * (a : ℚ) then
          { f with volume := f.volume - g * 0.0025 * (a : ℚ) }
        else { f with volume := 0 }) ∧
      (decayStep g fs ts).2[i]? =
        some (if 0 ≤ f.volume - g * 0.0025 * (a : ℚ) then a else 0) := by
  intro fs
  induction fs with
  | nil => intro ts i f a hf _; simp at hf
  | cons f0 fs' ih =>
    intro ts i f a hf ha
    cases ts with
    | nil => simp at ha
    | cons a0 ts' =>
      cases i with
      | zero =>
        simp only [List.getElem?_cons_zero, Option.some.injEq] at hf ha
        subst hf; subst ha
        rw [decayStep]
        split <;> simp_all
      | succ i' =>
        simp only [List.getElem?_cons_succ] at hf ha
        have := ih ts' i' f a hf ha
        rw [decayStep]
        split <;> simpa using this

/-- Claim C4, amended: with gravity enabled and held/processed buffers of
equal length, bin `i` snaps to the processed bin and resets its age only when
the processed volume is STRICTLY greater than the held volume (a tie keeps
the old held bin and increments the age, unlike the claimed `≥`); then the
volume becomes `max 0 (volume − gravity × 0.0025 × age)` with the age reset
exactly when the subtraction would go negative.  With gravity `None` the
held buffer is set to the processed buffer directly. -/
theorem stream_gravity_amended :
    (∀ (g : ℚ) (held : List Frequency) (age : List ℕ) (proc : List Frequency)
      (i : ℕ) (h p : Frequency) (a : ℕ),
      held.length = proc.length → age.length = proc.length →
      held[i]? = some h → age[i]? = some a → proc[i]? = some p →
      ∃ (h1 : Frequency) (a1 : ℕ),
        h1 = (if h.volume < p.volume then p else h) ∧
        a1 = (if h.volume < p.volume then 0 else a + 1) ∧
        (gravityApply g held age proc).1[i]? =
          some { h1 with volume := max 0 (h1.volume - g * 0.0025 * (a1 : ℚ)) } ∧
        (gravityApply g held age proc).2[i]? =
          some (if h1.volume - g * 0.0025 * (a1 : ℚ) < 0 then 0 else a1)) ∧
    (∀ (process : List ℚ → List Frequency) (s : Stream),
      s.config.gravity = none → s.config.fft_resolution < s.raw_buffer.length →
      (Stream.update process s).freq_buffer =
        process (s.raw_buffer.drop (s.raw_buffer.length - s.config.fft_resolution))) := by
  constructor
  · intro g held age proc i h p a hlen halen hh ha hp
    refine ⟨(if h.volume < p.volume then p else h),
      (if h.volume < p.volume then 0 else a + 1), rfl, rfl, ?_⟩
    have hga : gravityApply g held age proc =
        decayStep g (snapStep held age proc).1 (snapStep held age proc).2 := by
      rw [gravityApply]
      simp only [hlen, halen, ne_eq, not_true_eq_false, if_false, ite_self]
    obtain ⟨hs1, hs2⟩ := snapStep_getElem? held age proc i h p a hh ha hp
    obtain ⟨hd1, hd2⟩ := decayStep_getElem? g (snapStep held age proc).1
      (snapStep held age proc).2 i _ _ hs1 hs2
    rw [hga, hd1, hd2]
    constructor
    · congr 1
      by_cases hle : 0 ≤ (if h.volume < p.volume then p else h).volume -
          g * 0.0025 * ((if h.volume < p.volume then 0 else a + 1 : ℕ) : ℚ)
      · rw [if_pos hle]
        congr 1
        exact (max_eq_right hle).symm
      · rw [if_neg hle]
        congr 1
        rw [max_eq_left (le_of_lt (lt_of_not_le hle))]
    · congr 1
      by_cases hle : 0 ≤ (if h.volume < p.volume then p else h).volume -
          g * 0.0025 * ((if h.volume < p.volume then 0 else a + 1 : ℕ) : ℚ)
      · rw [if_pos hle, if_neg (not_lt.mpr hle)]
      · rw [if_neg hle, if_pos (lt_of_not_le hle)]
  · intro process s hg hlen
    rw [Stream.update, if_pos hlen, hg]

/-- Witness for the amended C4 at a concrete bin (strictly louder processed
bin snaps in; gravity 1 with age 0 decays nothing). -/
theorem stream_gravity_amended_witness :
    ([⟨1, 0, 0⟩] : List Frequency).length = ([⟨2, 5, 0⟩] : List Frequency).length ∧
    ∃ (h1 : Frequency) (a1 : ℕ),
      h1 = (if (1 : ℚ) < 2 then (⟨2, 5, 0⟩ : Frequency) else ⟨1, 0, 0⟩) ∧
      a1 = (if (1 : ℚ) < 2 then 0 else 0 + 1) ∧
      (gravityApply 1 [⟨1, 0, 0⟩] [0] [⟨2, 5, 0⟩]).1[0]? =
        some { h1 with volume := max 0 (h1.volume - 1 * 0.0025 * (a1 : ℚ)) } ∧
      (gravityApply 1 [⟨1, 0, 0⟩] [0] [⟨2, 5, 0⟩]).2[0]? =
        some (if h1.volume - 1 * 0.0025 * (a1 : ℚ) < 0 then 0 else a1) :=
  ⟨rfl, stream_gravity_amended.1 1 [⟨1, 0, 0⟩] [0] [⟨2, 5, 0⟩] 0 ⟨1, 0, 0⟩ ⟨2, 5, 0⟩ 0
    rfl rfl rfl rfl rfl⟩

/-- Claim C4, counterexample to the `≥` snap rule: a tick where the processed
bin has the SAME volume as the held bin (volume 1) but a different frequency
(200 vs 100).  The claim (`processed[i].volume ≥ held[i].volume` snaps) says
the held bin becomes the processed bin `{vol 1, freq 200}` (gravity 0, so no
decay); the code's strict `<` comparison keeps the old `{vol 1, freq 100}`
and increments the age instead. -/
theorem stream_gravity_counterexample :
    (Stream.update (fun _ => [⟨1, 200, 0⟩])
      (Stream.mk
        (StreamConfig.mk 2
          (ProcessorConfig.mk 44100 (50, 20000) none 1
            VolumeNormalisation.Mixture PositionNormalisation.Harmonic none
            Interpolation.Cubic)
          0 60 (some 0))
        [0] [⟨1, 100, 0⟩] [0])).freq_buffer = [⟨1, 100, 0⟩] ∧
    ([⟨1, 100, 0⟩] : List Frequency) ≠ [⟨1, 200, 0⟩] := by
  constructor
  · rw [Stream.update]
    norm_num [gravityApply, snapStep, decayStep]
  · intro h
    simp at h

/-- Claim C5: `Stream::update` recomputes only when the raw buffer holds
strictly more than `fft_resolution` samples, in which case the raw buffer is
first trimmed to exactly the `fft_resolution` most-recent samples; otherwise
the call returns with every field unchanged (total function, no panic).
The conjunct about gravity `None` pins down that the recompute consumes
exactly the trimmed buffer. -/
theorem stream_update_spec (process : List ℚ → List Frequency) (s : Stream) :
    (s.raw_buffer.length ≤ s.config.fft_resolution → Stream.update process s = s) ∧
    (s.config.fft_resolution < s.raw_buffer.length →
      (Stream.update process s).raw_buffer =
        s.raw_buffer.drop (s.raw_buffer.length - s.config.fft_resolution) ∧
      (Stream.update process s).raw_buffer.length = s.config.fft_resolution ∧
      (s.config.gravity = none →
        (Stream.update process s).freq_buffer =
          process (s.raw_buffer.drop (s.raw_buffer.length - s.config.fft_resolution)))) := by
  constructor
  · intro h
    rw [Stream.update, if_neg (not_lt.mpr h)]
  · intro h
    have hraw : (Stream.update process s).raw_buffer =
        s.raw_buffer.drop (s.raw_buffer.length - s.config.fft_resolution) := by
      rw [Stream.update, if_pos h]
      cases hg : s.config.gravity <;> simp [hg]
    refine ⟨hraw, ?_, ?_⟩
    · rw [hraw, List.length_drop]
      omega
    · intro hg
      rw [Stream.update, if_pos h, hg]

/-- Witness for C5: a 3-sample raw buffer with `fft_resolution = 4` leaves
the stream untouched. -/
theorem stream_update_spec_witness :
    (Stream.mk
      (StreamConfig.mk 1
        (ProcessorConfig.mk 44100 (50, 20000) none 1
          VolumeNormalisation.Mixture PositionNormalisation.Harmonic none
          Interpolation.Cubic)
        4 60 none)
      [1, 2, 3] [] []).raw_buffer.length ≤ 4 ∧
    Stream.update (fun _ => [])
      (Stream.mk
        (StreamConfig.mk 1
          (ProcessorConfig.mk 44100 (50, 20000) none 1
            VolumeNormalisation.Mixture PositionNormalisation.Harmonic none
            Interpolation.Cubic)
          4 60 none)
        [1, 2, 3] [] []) =
      Stream.mk
        (StreamConfig.mk 1
          (ProcessorConfig.mk 44100 (50, 20000) none 1
            VolumeNormalisation.Mixture PositionNormalisation.Harmonic none
            Interpolation.Cubic)
          4 60 none)
        [1, 2, 3] [] [] :=
  ⟨by norm_num,
    (stream_update_spec (fun _ => [])
      (Stream.mk
        (StreamConfig.mk 1
          (ProcessorConfig.mk 44100 (50, 20000) none 1
            VolumeNormalisation.Mixture PositionNormalisation.Harmonic none
            Interpolation.Cubic)
          4 60 none)
        [1, 2, 3] [] [])).1 (by norm_num)⟩

/-- Claim C10: `get_frequencies` computes its result by applying only
bounding then interpolation to a snapshot of the held buffer, writes none of
the `Stream`'s fields (raw buffer, held buffer, gravity ages all unchanged),
and hence two consecutive calls with no intervening update return equal
results. -/
theorem stream_get_frequencies_spec (s : Stream) :
    (s.get_frequencies).2 = s ∧
    (s.get_frequencies).1 =
      interpolate s.config.processor
        (bound_frequencies s.config.processor.frequency_bounds.1
          s.config.processor.frequency_bounds.2 s.freq_buffer) ∧
    ((s.get_frequencies).2.get_frequencies).1 = (s.get_frequencies).1 :=
  ⟨rfl, rfl, rfl⟩

/-! ## Volume normalisation (Processor::normalize_frequency_volume)

The factors involve `sqrt` and `log`, so this stage is modelled over `ℝ`
(`Real.sqrt`, `Real.logb`); the Rust expression `2_f32.log(x)` is the
logarithm of 2 in base `x`, i.e. `Real.logb x 2`. -/

/-- Indexed map starting at index `k`, mirroring the `for i in 0..len` loops. -/
noncomputable def mapIdxFrom (g : ℕ → ℝ → ℝ) : ℕ → List ℝ → List ℝ
  | _, [] => []
  | i, v :: vs => g i v :: mapIdxFrom g (i + 1) vs

/-- `Processor::normalize_frequency_volume` on the raw magnitude buffer, with
`percentage = (i + 1) / len`.  The `Logarithmic` factor is the source's
`1.0 / 2_f32.log(percentage + 1.0)`, i.e. `1 / logb (p+1) 2`. -/
noncomputable def normalizeFrequencyVolume (mode : VolumeNormalisation)
    (buf : List ℝ) : List ℝ :=
  match mode with
  | .None => buf
  | .Exponential =>
      mapIdxFrom (fun i v =>
        v * Real.sqrt (((i : ℝ) + 1) / (buf.length : ℝ))) 0 buf
  | .Logarithmic =>
      mapIdxFrom (fun i v =>
        v * (1 / Real.logb ((((i : ℝ) + 1) / (buf.length : ℝ)) + 1) 2)) 0 buf
  | .Mixture =>
      mapIdxFrom (fun i v =>
        v * ((1 / Real.logb ((((i : ℝ) + 1) / (buf.length : ℝ)) + 1) 2 +
          Real.sqrt (((i : ℝ) + 1) / (buf.length : ℝ))) / 2)) 0 buf

theorem mapIdxFrom_getElem? (g : ℕ → ℝ → ℝ) :
    ∀ (l : List ℝ) (k i : ℕ),
      (mapIdxFrom g k l)[i]? = (l[i]?).map (g (k + i)) := by
  intro l
  induction l with
  | nil => intro k i; simp [mapIdxFrom]
  | cons v vs ih =>
    intro k i
    cases i with
    | zero => simp [mapIdxFrom]
    | succ i' =>
      rw [mapIdxFrom]
      simp only [List.getElem?_cons_succ]
      rw [ih (k + 1) i']
      have hk : k + 1 + i' = k + (i' + 1) := by omega
      rw [hk]

/-- The reciprocal-of-reciprocal-base identity behind the amendment:
`1 / logb (p+1) 2 = logb 2 (p+1)` (both sides are 0 when `p = 0`). -/
theorem one_div_logb_swap (p : ℝ) : (Real.logb (p + 1) 2)⁻¹ = Real.logb 2 (p + 1) := by
  rw [Real.logb, Real.logb, ← one_div, one_div_div]

/-- Claim C7, amended: element `i` (with `p = (i+1)/N`) is multiplied by 1 in
`None` mode, by `sqrt p` in `Exponential` mode, by `log2(p+1)` in
`Logarithmic` mode (the source's `1.0 / 2_f32.log(p+1)` is the reciprocal of
`log base (p+1) of 2`, i.e. `log2(p+1)` — not `1/log2(p+1)` as claimed), and
by the average of the `Exponential` and `Logarithmic` factors in `Mixture`
mode. -/
theorem normalize_frequency_volume_amended (mode : VolumeNormalisation)
    (buf : List ℝ) (i : ℕ) :
    (normalizeFrequencyVolume mode buf)[i]? =
      (buf[i]?).map (fun v =>
        v * (match mode with
          | .None => 1
          | .Exponential => Real.sqrt (((i : ℝ) + 1) / (buf.length : ℝ))
          | .Logarithmic => Real.logb 2 ((((i : ℝ) + 1) / (buf.length : ℝ)) + 1)
          | .Mixture => (Real.logb 2 ((((i : ℝ) + 1) / (buf.length : ℝ)) + 1) +
              Real.sqrt (((i : ℝ) + 1) / (buf.length : ℝ))) / 2)) := by
  cases mode with
  | None =>
    rw [normalizeFrequencyVolume]
    cases h : buf[i]? <;> simp
  | Exponential =>
    rw [normalizeFrequencyVolume, mapIdxFrom_getElem?]
    simp
  | Logarithmic =>
    rw [normalizeFrequencyVolume, mapIdxFrom_getElem?]
    cases h : buf[i]? <;> simp [one_div_logb_swap]
  | Mixture =>
    rw [normalizeFrequencyVolume, mapIdxFrom_getElem?]
    cases h : buf[i]? <;> simp [one_div_logb_swap]

/-- Claim C7, counterexample: on the two-element buffer `[1, 1]`,
element 0 has `p = 1/2`; the code multiplies it by
`1 / logb (3/2) 2 = logb 2 (3/2) ≈ 0.585`, while the claim's factor is
`1 / logb 2 (3/2) ≈ 1.71`; since `0 < logb 2 (3/2) < 1`, the two differ. -/
theorem normalize_frequency_volume_counterexample :
    (normalizeFrequencyVolume VolumeNormalisation.Logarithmic [1, 1])[0]? ≠
      some (1 * (1 / Real.logb 2 ((1 / 2 : ℝ) + 1))) := by
  have hsw : (Real.logb ((3 : ℝ) / 2) 2)⁻¹ = Real.logb 2 ((3 : ℝ) / 2) := by
    have h := one_div_logb_swap ((1 : ℝ) / 2)
    norm_num at h
    exact h
  have hval : (normalizeFrequencyVolume VolumeNormalisation.Logarithmic [1, 1])[0]? =
      some (Real.logb 2 ((3 : ℝ) / 2)) := by
    rw [normalizeFrequencyVolume, mapIdxFrom_getElem?]
    norm_num [hsw]
  rw [hval]
  intro heq
  rw [Option.some_inj] at heq
  norm_num at heq
  have h1 : (0 : ℝ) < Real.logb 2 (3 / 2) := Real.logb_pos (by norm_num) (by norm_num)
  have h2 : Real.logb 2 ((3 : ℝ) / 2) < 1 := by
    have h := Real.logb_lt_logb (b := 2) (by norm_num) (by norm_num : (0 : ℝ) < 3 / 2)
      (by norm_num : (3 / 2 : ℝ) < 2)
    rwa [Real.logb_self_eq_one (by norm_num)] at h
  have h3 : Real.logb 2 ((3 : ℝ) / 2) * Real.logb 2 ((3 : ℝ) / 2) = 1 := by
    nth_rewrite 2 [heq]
    exact mul_inv_cancel₀ (ne_of_gt h1)
  nlinarith

end Audioviz
